import Mathlib

/-!
# Verification of the `endpoint_tester` load-generation engine

A shallow embedding of `src/endpoint_tester/src/lib.rs` (a Rust HTTP load
tester) together with theorems settling the frozen claims about its
specification.

Modelling conventions:
* Rust strings are modelled as `List Nat` of Unicode code points
  (the inputs relevant to the claims are ASCII; character-level helpers
  such as trimming, lowercasing and digit tests are modelled on the
  ASCII fragment that Rust's `trim` / `to_lowercase` /
  `to_ascii_uppercase` agree on there).
* `u64` arithmetic that can overflow is modelled as `Nat` arithmetic
  reduced `% 2^64` at the overflowing operation (Rust release-mode
  wrapping semantics).
* The `BTreeMap<u16, u64>` of exact status counts is modelled as an
  association list updated in place (the map's key ordering plays no
  role in any claim).
* The `hdrhistogram` latency histogram is modelled as the multiset
  (list) of samples the code hands to `Histogram::record`.
* Fallible Rust functions returning `anyhow::Result` are modelled with
  `Except RunError`.
* The concurrent worker pool of `run` is modelled as a small-step
  transition system over an explicit shared state, one atomic action of
  the Rust source per step.
-/

/- ======================= status-class rollup ======================= -/

/-- `StatusClassCounts` of `lib.rs` lines 133–141: six `u64` counters. -/
structure StatusClassCounts where
  c1xx : Nat
  c2xx : Nat
  c3xx : Nat
  c4xx : Nat
  c5xx : Nat
  other : Nat
deriving DecidableEq, Repr

/-- The all-zero value produced by `StatusClassCounts::default()`. -/
def StatusClassCounts.empty : StatusClassCounts := ⟨0, 0, 0, 0, 0, 0⟩

/-- `StatusClassCounts::record` (`lib.rs` lines 144–153): the Rust
`match code / 100` with arms `1`..`5` and a catch-all, rendered as an
if-chain on the same quotient. -/
def StatusClassCounts.record (s : StatusClassCounts) (code : Nat) : StatusClassCounts :=
  if code / 100 = 1 then { s with c1xx := s.c1xx + 1 }
  else if code / 100 = 2 then { s with c2xx := s.c2xx + 1 }
  else if code / 100 = 3 then { s with c3xx := s.c3xx + 1 }
  else if code / 100 = 4 then { s with c4xx := s.c4xx + 1 }
  else if code / 100 = 5 then { s with c5xx := s.c5xx + 1 }
  else { s with other := s.other + 1 }

/-- Sum of the six class counters (the "status_class rollup sum"). -/
def StatusClassCounts.total (s : StatusClassCounts) : Nat :=
  s.c1xx + s.c2xx + s.c3xx + s.c4xx + s.c5xx + s.other

lemma statusClassTotal_record (s : StatusClassCounts) (code : Nat) :
    (s.record code).total = s.total + 1 := by
  unfold StatusClassCounts.record StatusClassCounts.total
  split_ifs <;> simp <;> omega

/- ======================== network-error rollup ===================== -/

/-- `NetErrKind` of `lib.rs` lines 123–131. -/
inductive NetErrKind where
  | Timeout
  | Connect
  | Request
  | Body
  | Decode
  | Other
deriving DecidableEq, Repr

/-- `NetErrCounts` of `lib.rs` lines 156–164: six `u64` counters. -/
structure NetErrCounts where
  timeout : Nat
  connect : Nat
  request : Nat
  body : Nat
  decode : Nat
  other : Nat
deriving DecidableEq, Repr

/-- The all-zero value produced by `NetErrCounts::default()`. -/
def NetErrCounts.empty : NetErrCounts := ⟨0, 0, 0, 0, 0, 0⟩

/-- `NetErrCounts::record` (`lib.rs` lines 167–176). -/
def NetErrCounts.record (n : NetErrCounts) (k : NetErrKind) : NetErrCounts :=
  match k with
  | .Timeout => { n with timeout := n.timeout + 1 }
  | .Connect => { n with connect := n.connect + 1 }
  | .Request => { n with request := n.request + 1 }
  | .Body => { n with body := n.body + 1 }
  | .Decode => { n with decode := n.decode + 1 }
  | .Other => { n with other := n.other + 1 }

/-- `NetErrCounts::total` (`lib.rs` lines 178–180): derived on demand as
the sum of the six per-kind counters; there is no stored total field. -/
def NetErrCounts.total (n : NetErrCounts) : Nat :=
  n.timeout + n.connect + n.request + n.body + n.decode + n.other

lemma netErrTotal_record (n : NetErrCounts) (k : NetErrKind) :
    (n.record k).total = n.total + 1 := by
  cases k <;> simp [NetErrCounts.record, NetErrCounts.total] <;> omega

/- ==================== the reqwest error classifier ================== -/

/-- The observable predicates of a `reqwest::Error` that
`classify_reqwest_error` consults.  The HTTP client error itself is an
external library value; the classifier only queries these five boolean
predicates, so the error is modelled as that record of booleans. -/
structure ReqwestError where
  is_timeout : Bool
  is_connect : Bool
  is_request : Bool
  is_body : Bool
  is_decode : Bool
deriving DecidableEq, Repr

/-- `classify_reqwest_error` (`lib.rs` lines 215–229): the fixed
priority chain timeout → connect → request → body → decode → other. -/
def classify_reqwest_error (e : ReqwestError) : NetErrKind :=
  if e.is_timeout then NetErrKind.Timeout
  else if e.is_connect then NetErrKind.Connect
  else if e.is_request then NetErrKind.Request
  else if e.is_body then NetErrKind.Body
  else if e.is_decode then NetErrKind.Decode
  else NetErrKind.Other

/- ====================== exact status-code counts ==================== -/

/-- One step of the Rust `*self.status_exact.entry(code).or_insert(0) += 1`
(`lib.rs` line 202) on an association-list rendering of the
`BTreeMap<u16, u64>`: increment the entry for `code`, inserting it at
count `1` on its first occurrence. -/
def bumpEntry : List (Nat × Nat) → Nat → List (Nat × Nat)
  | [], code => [(code, 1)]
  | (k, v) :: rest, code =>
      if k = code then (k, v + 1) :: rest else (k, v) :: bumpEntry rest code

/-- Sum of all counts held in the exact status-code map. -/
def entrySum (m : List (Nat × Nat)) : Nat := (m.map Prod.snd).sum

lemma entrySum_bumpEntry (m : List (Nat × Nat)) (code : Nat) :
    entrySum (bumpEntry m code) = entrySum m + 1 := by
  induction m with
  | nil => simp [bumpEntry, entrySum]
  | cons p rest ih =>
      obtain ⟨k, v⟩ := p
      by_cases h : k = code <;> simp [bumpEntry, h, entrySum] at ih ⊢ <;> omega

lemma lookup_bumpEntry (m : List (Nat × Nat)) (code : Nat) :
    (bumpEntry m code).lookup code = some (((m.lookup code).getD 0) + 1) := by
  induction m with
  | nil => simp [bumpEntry, List.lookup]
  | cons p rest ih =>
      obtain ⟨k, v⟩ := p
      by_cases h : k = code
      · subst h
        simp [bumpEntry, List.lookup]
      · have hbeq : (code == k) = false := by
          simp only [beq_eq_false_iff_ne, ne_eq]
          exact fun hc => h hc.symm
        simp [bumpEntry, h, List.lookup, hbeq, ih]

/- ============================ aggregates ============================ -/

/-- `Aggregates` of `lib.rs` lines 183–189.  `status_exact` is the
association-list model of the `BTreeMap`, and `latency_micros` is the
list of samples recorded into the histogram, in recording order. -/
structure Aggregates where
  status_exact : List (Nat × Nat)
  status_class : StatusClassCounts
  net_errors : NetErrCounts
  latency_micros : List Nat
deriving DecidableEq, Repr

/-- `Aggregates::new` (`lib.rs` lines 192–199): everything empty. -/
def Aggregates.new : Aggregates :=
  ⟨[], StatusClassCounts.empty, NetErrCounts.empty, []⟩

/-- `Aggregates::record_status` (`lib.rs` lines 201–204). -/
def Aggregates.record_status (a : Aggregates) (code : Nat) : Aggregates :=
  { a with
    status_exact := bumpEntry a.status_exact code
    status_class := a.status_class.record code }

/-- `Aggregates::record_error` (`lib.rs` lines 206–208). -/
def Aggregates.record_error (a : Aggregates) (kind : NetErrKind) : Aggregates :=
  { a with net_errors := a.net_errors.record kind }

/-- `Aggregates::record_latency` (`lib.rs` lines 210–212): records
`micros.max(1)` into the latency histogram. -/
def Aggregates.record_latency (a : Aggregates) (micros : Nat) : Aggregates :=
  { a with latency_micros := a.latency_micros ++ [Nat.max micros 1] }

/- ================== Rust strings as code-point lists ================= -/

/-- Code points of a Lean string literal, used to write concrete Rust
string inputs in the model. -/
def codes (s : String) : List Nat := s.data.map Char.toNat

/-- ASCII whitespace recognised by the model of Rust's `str::trim`
(space, tab, line feed, carriage return; the claims only involve ASCII
inputs). -/
def isWsChar (c : Nat) : Bool := c = 32 || c = 9 || c = 10 || c = 13

/-- Model of Rust's `str::trim`: drop whitespace from both ends. -/
def trimChars (l : List Nat) : List Nat :=
  ((l.dropWhile isWsChar).reverse.dropWhile isWsChar).reverse

/-- Model of Rust's `to_lowercase` on the ASCII fragment: map A–Z to
a–z, leave everything else alone. -/
def lowerChar (c : Nat) : Nat := if 65 ≤ c ∧ c ≤ 90 then c + 32 else c

/-- Normalisation `s.trim().to_lowercase()` performed at the top of
`parse_duration` (`lib.rs` line 496). -/
def normalizeInput (l : List Nat) : List Nat := (trimChars l).map lowerChar

/-- ASCII decimal digit. -/
def isDigitChar (c : Nat) : Bool := 48 ≤ c && c ≤ 57

/-- Numeric value of a list of ASCII digits, most significant first. -/
def digitsVal (l : List Nat) : Nat := l.foldl (fun a c => a * 10 + (c - 48)) 0

/-- Model of Rust's `str::parse::<u64>`: an optional leading `+`
followed by at least one ASCII digit, rejecting values that do not fit
in 64 bits. -/
def rustParseU64 (l : List Nat) : Option Nat :=
  let ds := if l.head? = some 43 then l.tail else l
  if ds = [] then none
  else if ds.all isDigitChar then
    if digitsVal ds < 2 ^ 64 then some (digitsVal ds) else none
  else none

/-- `l` starts with the prefix `p`. -/
def startsWithL : List Nat → List Nat → Bool
  | _, [] => true
  | [], _ :: _ => false
  | c :: cs, p :: ps => c == p && startsWithL cs ps

/-- Model of Rust's `str::ends_with`. -/
def endsWithL (l suf : List Nat) : Bool := startsWithL l.reverse suf.reverse

/-- Rust `std::time::Duration`: whole seconds plus a nanosecond part. -/
structure Duration where
  secs : Nat
  nanos : Nat
deriving DecidableEq, Repr

/-- `Duration::from_millis`. -/
def Duration.fromMillis (n : Nat) : Duration :=
  ⟨n / 1000, (n % 1000) * 1000000⟩

/-- `Duration::from_secs`. -/
def Duration.fromSecs (n : Nat) : Duration := ⟨n, 0⟩

/-- Wrapping `u64` multiplication (Rust release-mode semantics for the
`n * 60` and `n * 60 * 60` products in `parse_duration`). -/
def wrapMul (a b : Nat) : Nat := (a * b) % 2 ^ 64

/-- Body of `parse_duration` (`lib.rs` lines 497–520) after the
`let s = s.trim().to_lowercase()` rebinding of line 496: reject the
empty string, strip the unit suffix checking `"ms"` before `"s"`,
`"m"`, `"h"`, re-trim the numeric slice, parse it as `u64`, and build
the `Duration` for the unit. -/
def parseNormalizedDur (s : List Nat) : Option Duration :=
  if s = [] then none
  else if endsWithL s (codes "ms") then
    (rustParseU64 (trimChars (s.take (s.length - 2)))).map Duration.fromMillis
  else if endsWithL s (codes "s") then
    (rustParseU64 (trimChars (s.take (s.length - 1)))).map Duration.fromSecs
  else if endsWithL s (codes "m") then
    (rustParseU64 (trimChars (s.take (s.length - 1)))).map
      (fun n => Duration.fromSecs (wrapMul n 60))
  else if endsWithL s (codes "h") then
    (rustParseU64 (trimChars (s.take (s.length - 1)))).map
      (fun n => Duration.fromSecs (wrapMul (wrapMul n 60) 60))
  else none

/-- `parse_duration` (`lib.rs` lines 495–521): normalise the input by
`trim` and `to_lowercase`, then parse the normalised string. -/
def parse_duration (input : List Nat) : Option Duration :=
  parseNormalizedDur (normalizeInput input)

/-- The numeric slice that `parseNormalizedDur` hands to
`parse::<u64>`, as a function of the normalised string (empty when no
unit suffix matches, in which case the parse already returns `none`). -/
def numericSliceNorm (s : List Nat) : List Nat :=
  if s = [] then []
  else if endsWithL s (codes "ms") then trimChars (s.take (s.length - 2))
  else if endsWithL s (codes "s") then trimChars (s.take (s.length - 1))
  else if endsWithL s (codes "m") then trimChars (s.take (s.length - 1))
  else if endsWithL s (codes "h") then trimChars (s.take (s.length - 1))
  else []

/-- The numeric slice that `parse_duration` hands to `parse::<u64>`
for a given input. -/
def numericSlice (input : List Nat) : List Nat :=
  numericSliceNorm (normalizeInput input)

/- ===================== configuration validation ===================== -/

/-- The HTTP method allow-list of `parse_http_method`. -/
inductive Method where
  | GET
  | POST
  | PUT
  | DELETE
  | PATCH
  | HEAD
  | OPTIONS
  | TRACE
  | CONNECT
deriving DecidableEq, Repr

/-- Model of Rust's `to_ascii_uppercase` on one code point. -/
def upperChar (c : Nat) : Nat := if 97 ≤ c ∧ c ≤ 122 then c - 32 else c

/-- `parse_http_method` (`lib.rs` lines 466–479): trim, uppercase, and
match against the explicit allow-list. -/
def parse_http_method (l : List Nat) : Option Method :=
  let u := (trimChars l).map upperChar
  if u = codes "GET" then some Method.GET
  else if u = codes "POST" then some Method.POST
  else if u = codes "PUT" then some Method.PUT
  else if u = codes "DELETE" then some Method.DELETE
  else if u = codes "PATCH" then some Method.PATCH
  else if u = codes "HEAD" then some Method.HEAD
  else if u = codes "OPTIONS" then some Method.OPTIONS
  else if u = codes "TRACE" then some Method.TRACE
  else if u = codes "CONNECT" then some Method.CONNECT
  else none

/-- `parse_header` (`lib.rs` lines 481–492): split at the first `:`
(code point 58); fail when there is no colon or the trimmed key is
empty; return the trimmed key and value. -/
def parse_header (l : List Nat) : Option (List Nat × List Nat) :=
  if 58 ∈ l then
    let k := trimChars (l.takeWhile (fun c => c ≠ 58))
    let v := trimChars ((l.dropWhile (fun c => c ≠ 58)).tail)
    if k = [] then none else some (k, v)
  else none

/-- `BTreeMap::insert` on the association-list model of the header map:
replace the value of an existing key, otherwise append the new pair
(last write wins). -/
def insertHeader : List (List Nat × List Nat) → List Nat → List Nat →
    List (List Nat × List Nat)
  | [], k, v => [(k, v)]
  | (k0, v0) :: rest, k, v =>
      if k0 = k then (k0, v) :: rest else (k0, v0) :: insertHeader rest k v

/-- `RunArgs` of `lib.rs` lines 74–87 (strings as code-point lists). -/
structure RunArgs where
  url : List Nat
  method : List Nat
  concurrency : Nat
  requests : Option Nat
  duration : Option (List Nat)
  timeout : List Nat
  headers : List (List Nat)
  api_key : Option (List Nat)
  json : Option (List Nat)
  json_file : Option (List Nat)
  progress_every : Nat
deriving DecidableEq, Repr

/-- The distinct `anyhow` error cases produced before any worker is
spawned in `run` (`lib.rs` lines 233–276). -/
inductive RunError where
  | invalidUrl
  | invalidMethod
  | noStopCondition
  | invalidTimeout
  | invalidDuration
  | invalidHeader
  | jsonConflict
  | invalidJson
  | jsonFileRead
  | invalidJsonFile
  | clientBuild
deriving DecidableEq, Repr

/-- `load_json_payload` (`lib.rs` lines 523–542).  JSON syntax checking
and file reading are external collaborators (`serde_json`, `std::fs`),
so they enter as the parameters `jsonOk` (does a text parse as JSON?)
and `readFile` (file contents, `none` when reading fails). -/
def load_json_payload (jsonOk : List Nat → Bool)
    (readFile : List Nat → Option (List Nat)) (args : RunArgs) :
    Except RunError (Option (List Nat)) :=
  match args.json, args.json_file with
  | some _, some _ => .error .jsonConflict
  | some s, none => if jsonOk s then .ok (some s) else .error .invalidJson
  | none, some path =>
      match readFile path with
      | none => .error .jsonFileRead
      | some bytes =>
          if jsonOk bytes then .ok (some bytes) else .error .invalidJsonFile
  | none, none => .ok none

/-- The header-parsing loop of `run` (`lib.rs` lines 258–264): parse
each `--header` string in order, failing on the first invalid one, and
insert into the map. -/
def parseHeaders : List (List Nat) → List (List Nat × List Nat) →
    Except RunError (List (List Nat × List Nat))
  | [], acc => .ok acc
  | h :: rest, acc =>
      match parse_header h with
      | none => .error .invalidHeader
      | some (k, v) => parseHeaders rest (insertHeader acc k v)

/-- The validated configuration assembled by `run` before spawning
workers. -/
structure ValidatedRun where
  method : Method
  timeout : Duration
  duration_target : Option Duration
  header_map : List (List Nat × List Nat)
  json_payload : Option (List Nat)
deriving DecidableEq, Repr

/-- The validation prelude of `run` (`lib.rs` lines 233–276), everything
executed before the worker-spawn loop at line 290, in source order:
URL syntax (external `Url::parse`, the parameter `urlOk`), the method
allow-list, the requests/duration presence check, timeout and optional
duration parsing, header parsing plus the `--api-key` convenience
header, the JSON payload, and the `reqwest` client build (external, the
parameter `clientOk`). -/
def run_validate (urlOk : List Nat → Bool) (jsonOk : List Nat → Bool)
    (readFile : List Nat → Option (List Nat)) (clientOk : Bool)
    (args : RunArgs) : Except RunError ValidatedRun := do
  if urlOk args.url = false then throw .invalidUrl
  let some m := parse_http_method args.method | throw .invalidMethod
  if args.requests = none ∧ args.duration = none then throw .noStopCondition
  let some t := parse_duration args.timeout | throw .invalidTimeout
  let dur ← match args.duration with
    | some d =>
        match parse_duration d with
        | none => throw RunError.invalidDuration
        | some dd => pure (some dd)
    | none => pure none
  let hs ← parseHeaders args.headers []
  let hs := match args.api_key with
    | some tok => insertHeader hs (codes "Authorization")
        (codes "Bearer " ++ tok)
    | none => hs
  let payload ← load_json_payload jsonOk readFile args
  if clientOk = false then throw .clientBuild
  return ⟨m, t, dur, hs, payload⟩

/- ==================== the concurrent dispatch loop ================== -/

/-- Program location of one worker inside the spawned loop of `run`
(`lib.rs` lines 304–363), between the atomic actions it performs:

* `top` — at the loop head, about to load `stop` (line 306);
* `checked` — `stop` read `false`, about to check the deadline and the
  limit (lines 310–333);
* `loaded cur` — read `cur` from the `sent` counter (line 319), about
  to compare it against the limit and attempt the compare-exchange;
* `inFlight` — slot reserved, the HTTP exchange and the statistics
  merge are in progress (lines 335–357);
* `done` — broken out of the loop. -/
inductive WState where
  | top
  | checked
  | loaded (cur : Nat)
  | inFlight
  | done
deriving DecidableEq, Repr

/-- The stopping configuration a run was started with: the optional
`--requests` limit and whether a `--duration` deadline exists.  The
wall clock itself is not modelled; an existing deadline can
nondeterministically be observed as expired. -/
structure RunConfig where
  limit : Option Nat
  hasDeadline : Bool
deriving DecidableEq, Repr

/-- The shared state of a run: the `sent` and `completed` atomic
counters, the `stop` flag, and every worker's location. -/
structure SState where
  sent : Nat
  completed : Nat
  stop : Bool
  workers : List WState
deriving DecidableEq, Repr

/-- State at the moment the workers are spawned (`lib.rs` lines
279–290): counters zero, `stop` false, `conc` workers at the loop head. -/
def initState (conc : Nat) : SState :=
  ⟨0, 0, false, List.replicate conc WState.top⟩

/-- One atomic action of one worker, exactly mirroring the loop body of
`run` (`lib.rs` lines 305–362). -/
inductive Step (cfg : RunConfig) : SState → SState → Prop
  /-- Line 306: `stop.load()` is `true`; `break`. -/
  | stopSeen (s : SState) (i : Nat) :
      s.workers[i]? = some WState.top → s.stop = true →
      Step cfg s { s with workers := s.workers.set i WState.done }
  /-- Line 306: `stop.load()` is `false`; continue into the body. -/
  | stopClear (s : SState) (i : Nat) :
      s.workers[i]? = some WState.top → s.stop = false →
      Step cfg s { s with workers := s.workers.set i WState.checked }
  /-- Lines 310–314: a deadline exists and `Instant::now()` has reached
  it; `stop.store(true)` and `break`. -/
  | deadlineHit (s : SState) (i : Nat) :
      s.workers[i]? = some WState.checked → cfg.hasDeadline = true →
      Step cfg s { s with stop := true, workers := s.workers.set i WState.done }
  /-- Line 319: with a limit configured, read `cur` from `sent`. -/
  | loadSent (s : SState) (i : Nat) (n : Nat) :
      s.workers[i]? = some WState.checked → cfg.limit = some n →
      Step cfg s { s with workers := s.workers.set i (WState.loaded s.sent) }
  /-- Lines 320–323: the observed value has reached the limit;
  `stop.store(true)` and `break`. -/
  | limitReached (s : SState) (i : Nat) (n cur : Nat) :
      s.workers[i]? = some (WState.loaded cur) → cfg.limit = some n →
      n ≤ cur →
      Step cfg s { s with stop := true, workers := s.workers.set i WState.done }
  /-- Lines 325–330: `compare_exchange(cur, cur + 1)` succeeds, the
  slot is reserved and the request goes out. -/
  | casOk (s : SState) (i : Nat) (n cur : Nat) :
      s.workers[i]? = some (WState.loaded cur) → cfg.limit = some n →
      cur < n → s.sent = cur →
      Step cfg s
        { s with sent := cur + 1, workers := s.workers.set i WState.inFlight }
  /-- Lines 325–330: `compare_exchange` fails on a concurrent writer;
  `continue` back to the loop head. -/
  | casRetry (s : SState) (i : Nat) (n cur : Nat) :
      s.workers[i]? = some (WState.loaded cur) → cfg.limit = some n →
      cur < n → s.sent ≠ cur →
      Step cfg s { s with workers := s.workers.set i WState.top }
  /-- Line 332: no limit configured; `sent.fetch_add(1)` and the
  request goes out. -/
  | freeAdd (s : SState) (i : Nat) :
      s.workers[i]? = some WState.checked → cfg.limit = none →
      Step cfg s
        { s with sent := s.sent + 1, workers := s.workers.set i WState.inFlight }
  /-- Lines 335–361: the exchange finishes, its outcome is folded into
  the aggregates, and `completed.fetch_add(1)` runs; back to the loop
  head. -/
  | finish (s : SState) (i : Nat) :
      s.workers[i]? = some WState.inFlight →
      Step cfg s
        { s with completed := s.completed + 1,
                 workers := s.workers.set i WState.top }

/-- States reachable from `a` by interleaved worker actions. -/
inductive Reach (cfg : RunConfig) (a : SState) : SState → Prop
  | refl : Reach cfg a a
  | tail (b c : SState) : Reach cfg a b → Step cfg b c → Reach cfg a c

/-- Number of workers currently holding a reserved, uncompleted slot. -/
def countInFlight (l : List WState) : Nat :=
  l.countP (fun w => w == WState.inFlight)

/-- Every worker has exited its loop (`run` is past the joins of
`lib.rs` lines 366–368 and reads the final counters). -/
def allDone (s : SState) : Prop := ∀ w ∈ s.workers, w = WState.done

/- ------------------- bookkeeping lemmas for steps ------------------ -/

lemma countP_set (p : WState → Bool) (l : List WState) (i : Nat) (a b : WState)
    (h : l[i]? = some a) :
    (l.set i b).countP p + (if p a then 1 else 0)
      = l.countP p + (if p b then 1 else 0) := by
  induction l generalizing i with
  | nil => simp at h
  | cons x xs ih =>
      cases i with
      | zero =>
          simp only [List.getElem?_cons_zero, Option.some.injEq] at h
          subst h
          simp only [List.set_cons_zero, List.countP_cons]
          split_ifs <;> omega
      | succ j =>
          simp only [List.getElem?_cons_succ] at h
          have := ih j h
          simp only [List.set_cons_succ, List.countP_cons]
          split_ifs at this ⊢ <;> omega

lemma countInFlight_set (l : List WState) (i : Nat) (a b : WState)
    (h : l[i]? = some a) :
    countInFlight (l.set i b) + (if a = WState.inFlight then 1 else 0)
      = countInFlight l + (if b = WState.inFlight then 1 else 0) := by
  have := countP_set (fun w => w == WState.inFlight) l i a b h
  simpa [countInFlight] using this

lemma mem_of_getElem?_eq {l : List WState} {i : Nat} {a : WState}
    (h : l[i]? = some a) : a ∈ l := by
  induction l generalizing i with
  | nil => simp at h
  | cons x xs ih =>
      cases i with
      | zero => simp only [List.getElem?_cons_zero, Option.some.injEq] at h; simp [h]
      | succ j =>
          simp only [List.getElem?_cons_succ] at h
          exact List.mem_cons_of_mem _ (ih h)

lemma step_workers_length {cfg : RunConfig} {s s' : SState} (h : Step cfg s s') :
    s'.workers.length = s.workers.length := by
  cases h <;> simp

lemma reach_workers_length {cfg : RunConfig} {a s : SState} (h : Reach cfg a s) :
    s.workers.length = a.workers.length := by
  induction h with
  | refl => rfl
  | tail b c _ hstep ih => rw [step_workers_length hstep, ih]

/-- Counter/flag monotonicity of a single step: `sent` and `completed`
never decrease and `stop` is never reset. -/
lemma step_mono {cfg : RunConfig} {s s' : SState} (h : Step cfg s s') :
    s.sent ≤ s'.sent ∧ s.completed ≤ s'.completed ∧
      (s.stop = true → s'.stop = true) := by
  cases h <;> refine ⟨?_, ?_, ?_⟩ <;> simp_all

/- ------------------------- the run invariant ----------------------- -/

/-- The inductive invariant of a run configured with `--requests T`:
`sent` is bounded by the target, `sent` accounts exactly for the
completed requests plus the reserved in-flight slots, every value a
worker has read from `sent` is a lower bound of the current `sent`,
and a worker can only have exited after `stop` was raised. -/
def RunInv (T : Nat) (s : SState) : Prop :=
  s.sent ≤ T ∧
  s.sent = s.completed + countInFlight s.workers ∧
  (∀ cur, WState.loaded cur ∈ s.workers → cur ≤ s.sent) ∧
  (WState.done ∈ s.workers → s.stop = true)

lemma countInFlight_replicate_top (conc : Nat) :
    countInFlight (List.replicate conc WState.top) = 0 := by
  simp only [countInFlight, List.countP_eq_zero]
  intro w hw
  simp [List.eq_of_mem_replicate hw]

lemma inv_init (T conc : Nat) : RunInv T (initState conc) := by
  refine ⟨Nat.zero_le _, ?_, ?_, ?_⟩
  · simp [initState, countInFlight_replicate_top]
  · intro cur hmem
    simp only [initState] at hmem
    have := List.eq_of_mem_replicate hmem
    simp at this
  · intro hmem
    simp only [initState] at hmem
    have := List.eq_of_mem_replicate hmem
    simp at this

lemma inv_step {T : Nat} {hd : Bool} {s s' : SState}
    (hstep : Step ⟨some T, hd⟩ s s') (hinv : RunInv T s) : RunInv T s' := by
  obtain ⟨h1, h2, h3, h4⟩ := hinv
  cases hstep with
  | stopSeen i hw hstop =>
      refine ⟨h1, ?_, ?_, ?_⟩
      · have hc := countInFlight_set s.workers i WState.top WState.done hw
        simp at hc
        show s.sent = s.completed + countInFlight (s.workers.set i WState.done)
        omega
      · intro cur hmem
        rcases List.mem_or_eq_of_mem_set hmem with hm | he
        · exact h3 cur hm
        · simp at he
      · intro _; exact hstop
  | stopClear i hw hstop =>
      refine ⟨h1, ?_, ?_, ?_⟩
      · have hc := countInFlight_set s.workers i WState.top WState.checked hw
        simp at hc
        show s.sent = s.completed + countInFlight (s.workers.set i WState.checked)
        omega
      · intro cur hmem
        rcases List.mem_or_eq_of_mem_set hmem with hm | he
        · exact h3 cur hm
        · simp at he
      · intro hmem
        rcases List.mem_or_eq_of_mem_set hmem with hm | he
        · exact h4 hm
        · simp at he
  | deadlineHit i hw hdl =>
      refine ⟨h1, ?_, ?_, ?_⟩
      · have hc := countInFlight_set s.workers i WState.checked WState.done hw
        simp at hc
        show s.sent = s.completed + countInFlight (s.workers.set i WState.done)
        omega
      · intro cur hmem
        rcases List.mem_or_eq_of_mem_set hmem with hm | he
        · exact h3 cur hm
        · simp at he
      · intro _; rfl
  | loadSent i n hw hlim =>
      refine ⟨h1, ?_, ?_, ?_⟩
      · have hc := countInFlight_set s.workers i WState.checked
          (WState.loaded s.sent) hw
        simp at hc
        show s.sent
          = s.completed + countInFlight (s.workers.set i (WState.loaded s.sent))
        omega
      · intro cur hmem
        rcases List.mem_or_eq_of_mem_set hmem with hm | he
        · exact h3 cur hm
        · simp only [WState.loaded.injEq] at he
          simp [he]
      · intro hmem
        rcases List.mem_or_eq_of_mem_set hmem with hm | he
        · exact h4 hm
        · simp at he
  | limitReached i n cur hw hlim hge =>
      refine ⟨h1, ?_, ?_, ?_⟩
      · have hc := countInFlight_set s.workers i (WState.loaded cur)
          WState.done hw
        simp at hc
        show s.sent = s.completed + countInFlight (s.workers.set i WState.done)
        omega
      · intro cur2 hmem
        rcases List.mem_or_eq_of_mem_set hmem with hm | he
        · exact h3 cur2 hm
        · simp at he
      · intro _; rfl
  | casOk i n cur hw hlim hlt hsent =>
      have hTn : T = n := by
        have : some T = some n := hlim
        simpa using this
      refine ⟨?_, ?_, ?_, ?_⟩
      · show cur + 1 ≤ T
        omega
      · have hc := countInFlight_set s.workers i (WState.loaded cur)
          WState.inFlight hw
        simp at hc
        show cur + 1
          = s.completed + countInFlight (s.workers.set i WState.inFlight)
        omega
      · intro cur2 hmem
        rcases List.mem_or_eq_of_mem_set hmem with hm | he
        · have := h3 cur2 hm
          show cur2 ≤ cur + 1
          omega
        · simp at he
      · intro hmem
        rcases List.mem_or_eq_of_mem_set hmem with hm | he
        · exact h4 hm
        · simp at he
  | casRetry i n cur hw hlim hlt hne =>
      refine ⟨h1, ?_, ?_, ?_⟩
      · have hc := countInFlight_set s.workers i (WState.loaded cur)
          WState.top hw
        simp at hc
        show s.sent = s.completed + countInFlight (s.workers.set i WState.top)
        omega
      · intro cur2 hmem
        rcases List.mem_or_eq_of_mem_set hmem with hm | he
        · exact h3 cur2 hm
        · simp at he
      · intro hmem
        rcases List.mem_or_eq_of_mem_set hmem with hm | he
        · exact h4 hm
        · simp at he
  | freeAdd i hw hlim =>
      simp at hlim
  | finish i hw =>
      refine ⟨h1, ?_, ?_, ?_⟩
      · have hc := countInFlight_set s.workers i WState.inFlight
          WState.top hw
        simp at hc
        show s.sent
          = s.completed + 1 + countInFlight (s.workers.set i WState.top)
        omega
      · intro cur2 hmem
        rcases List.mem_or_eq_of_mem_set hmem with hm | he
        · exact h3 cur2 hm
        · simp at he
      · intro hmem
        rcases List.mem_or_eq_of_mem_set hmem with hm | he
        · exact h4 hm
        · simp at he

lemma inv_reach {T : Nat} {hd : Bool} {conc : Nat} {s : SState}
    (h : Reach ⟨some T, hd⟩ (initState conc) s) : RunInv T s := by
  induction h with
  | refl => exact inv_init T conc
  | tail b c _ hstep ih => exact inv_step hstep ih

lemma stop_sent_step {T : Nat} {s s' : SState}
    (hstep : Step ⟨some T, false⟩ s s') (hinv : RunInv T s)
    (hss : s.stop = true → s.sent = T) : s'.stop = true → s'.sent = T := by
  obtain ⟨h1, h2, h3, h4⟩ := hinv
  cases hstep with
  | stopSeen i hw hstop => exact hss
  | stopClear i hw hstop => exact hss
  | deadlineHit i hw hdl => simp at hdl
  | loadSent i n hw hlim => exact hss
  | limitReached i n cur hw hlim hge =>
      intro _
      have hTn : T = n := by
        have : some T = some n := hlim
        simpa using this
      have hcur := h3 cur (mem_of_getElem?_eq hw)
      show s.sent = T
      omega
  | casOk i n cur hw hlim hlt hsent =>
      intro hstop
      have hTn : T = n := by
        have : some T = some n := hlim
        simpa using this
      have : s.sent = T := hss hstop
      omega
  | casRetry i n cur hw hlim hlt hne => exact hss
  | freeAdd i hw hlim => simp at hlim
  | finish i hw => exact hss

lemma stop_sent_reach {T conc : Nat} {s : SState}
    (h : Reach ⟨some T, false⟩ (initState conc) s) :
    s.stop = true → s.sent = T := by
  induction h with
  | refl => intro hstop; simp [initState] at hstop
  | tail b c hr hstep ih => exact stop_sent_step hstep (inv_reach hr) ih

lemma allDone_countInFlight {s : SState} (hdone : allDone s) :
    countInFlight s.workers = 0 := by
  simp only [countInFlight, List.countP_eq_zero]
  intro w hw
  simp [hdone w hw]

lemma allDone_done_mem {s : SState} (hdone : allDone s)
    (hne : s.workers ≠ []) : WState.done ∈ s.workers := by
  cases hw : s.workers with
  | nil => exact absurd hw hne
  | cons w rest =>
      have : w = WState.done := hdone w (by simp [hw])
      simp [hw, this]

/- ========================= claim theorems ========================== -/

/-- Claim C1, counterexample to the claim as stated.  The claim asserts
that whenever `run(args)` has `requests = T`, every completed run ends
with `sent = T` and `completed = T`; but nothing in the claim excludes
a `--duration` deadline being configured alongside the count target
(for example `--requests 1 --duration 0s`).  The worker's deadline
check at `lib.rs` line 311 runs before the limit check, so an already
expired deadline stops the run with `sent = 0` and `completed = 0`.
Concretely: for the run configuration with limit `1` and a deadline,
the all-workers-done state with `sent = 0` is reachable from the
initial one-worker state, yet `0 ≠ 1`. -/
theorem c1_counterexample_deadline_preempts_target :
    Reach ⟨some 1, true⟩ (initState 1) ⟨0, 0, true, [WState.done]⟩ ∧
      allDone ⟨0, 0, true, [WState.done]⟩ ∧
      (⟨0, 0, true, [WState.done]⟩ : SState).sent ≠ 1 := by
  refine ⟨?_, ?_, by decide⟩
  · have h1 : Step ⟨some 1, true⟩ (initState 1)
        ⟨0, 0, false, [WState.checked]⟩ :=
      Step.stopClear (initState 1) 0 rfl rfl
    have h2 : Step ⟨some 1, true⟩ (⟨0, 0, false, [WState.checked]⟩ : SState)
        ⟨0, 0, true, [WState.done]⟩ :=
      Step.deadlineHit ⟨0, 0, false, [WState.checked]⟩ 0 rfl rfl
    exact Reach.tail _ _ (Reach.tail _ _ (Reach.refl) h1) h2
  · intro w hw
    simpa using hw

/-- Claim C1 (amended): for every worker count `N ≥ 1` and every
request-count target `T ≥ 0` (including `T = 0`), when `run(args)` with
`requests = T` and no duration deadline returns, its `sent` and
`completed` counters both equal `T` exactly — no overshoot and no
undershoot — regardless of how the `N` concurrent workers interleave.
Formally: every state of the count-target-only run reachable from the
`N`-worker initial state in which all workers have exited has
`sent = T` and `completed = T`. -/
theorem c1_amended_exact_count {T conc : Nat} {s : SState}
    (hconc : 1 ≤ conc)
    (hr : Reach ⟨some T, false⟩ (initState conc) s)
    (hdone : allDone s) : s.sent = T ∧ s.completed = T := by
  obtain ⟨h1, h2, h3, h4⟩ := inv_reach hr
  have hlen : s.workers.length = conc := by
    have := reach_workers_length hr
    simpa [initState] using this
  have hne : s.workers ≠ [] := by
    intro hnil
    rw [hnil] at hlen
    simp at hlen
    omega
  have hstop : s.stop = true := h4 (allDone_done_mem hdone hne)
  have hsent : s.sent = T := stop_sent_reach hr hstop
  have hcf : countInFlight s.workers = 0 := allDone_countInFlight hdone
  exact ⟨hsent, by omega⟩

/-- Witness for C1 (amended) at `N = 1`, `T = 0`: the single worker
loads `sent = 0`, sees the target already met, raises `stop` and exits;
the terminal state has `sent = 0` and `completed = 0` (a target of `0`
issues nothing and completes immediately). -/
theorem c1_amended_exact_count_witness :
    (⟨0, 0, true, [WState.done]⟩ : SState).sent = 0 ∧
      (⟨0, 0, true, [WState.done]⟩ : SState).completed = 0 := by
  have h1 : Step ⟨some 0, false⟩ (initState 1)
      ⟨0, 0, false, [WState.checked]⟩ :=
    Step.stopClear (initState 1) 0 rfl rfl
  have h2 : Step ⟨some 0, false⟩ (⟨0, 0, false, [WState.checked]⟩ : SState)
      ⟨0, 0, false, [WState.loaded 0]⟩ :=
    Step.loadSent ⟨0, 0, false, [WState.checked]⟩ 0 0 rfl rfl
  have h3 : Step ⟨some 0, false⟩ (⟨0, 0, false, [WState.loaded 0]⟩ : SState)
      ⟨0, 0, true, [WState.done]⟩ :=
    Step.limitReached ⟨0, 0, false, [WState.loaded 0]⟩ 0 0 0 rfl rfl
      (Nat.le_refl 0)
  have hr : Reach ⟨some 0, false⟩ (initState 1) ⟨0, 0, true, [WState.done]⟩ :=
    Reach.tail _ _ (Reach.tail _ _ (Reach.tail _ _ (Reach.refl) h1) h2) h3
  exact c1_amended_exact_count (Nat.le_refl 1) hr (fun w hw => by simpa using hw)

/-- Claim C2: in every reachable state of a run with a request-count
target `T` set (with or without an additional deadline), the shared
counters satisfy `sent ≤ T` and `completed ≤ sent`; and across every
step of every worker both counters are monotonically non-decreasing and
the `stop` flag, once `true`, is never reset to `false`. -/
theorem c2_counter_invariants {T conc : Nat} {hd : Bool} {s : SState}
    (hr : Reach ⟨some T, hd⟩ (initState conc) s) :
    (s.sent ≤ T ∧ s.completed ≤ s.sent) ∧
      ∀ s', Step ⟨some T, hd⟩ s s' →
        s.sent ≤ s'.sent ∧ s.completed ≤ s'.completed ∧
          (s.stop = true → s'.stop = true) := by
  obtain ⟨h1, h2, _, _⟩ := inv_reach hr
  exact ⟨⟨h1, by omega⟩, fun s' hstep => step_mono hstep⟩

/-- Witness for C2 at `T = 3`, one worker, after one reservation:
the state `⟨1, 0, false, [inFlight]⟩` is reachable and satisfies
`sent ≤ 3` and `completed ≤ sent`. -/
theorem c2_counter_invariants_witness :
    (⟨1, 0, false, [WState.inFlight]⟩ : SState).sent ≤ 3 ∧
      (⟨1, 0, false, [WState.inFlight]⟩ : SState).completed ≤
        (⟨1, 0, false, [WState.inFlight]⟩ : SState).sent := by
  have h1 : Step ⟨some 3, false⟩ (initState 1)
      ⟨0, 0, false, [WState.checked]⟩ :=
    Step.stopClear (initState 1) 0 rfl rfl
  have h2 : Step ⟨some 3, false⟩ (⟨0, 0, false, [WState.checked]⟩ : SState)
      ⟨0, 0, false, [WState.loaded 0]⟩ :=
    Step.loadSent ⟨0, 0, false, [WState.checked]⟩ 0 3 rfl rfl
  have h3 : Step ⟨some 3, false⟩ (⟨0, 0, false, [WState.loaded 0]⟩ : SState)
      ⟨1, 0, false, [WState.inFlight]⟩ :=
    Step.casOk ⟨0, 0, false, [WState.loaded 0]⟩ 0 3 0 rfl rfl (by omega) rfl
  have hr : Reach ⟨some 3, false⟩ (initState 1)
      ⟨1, 0, false, [WState.inFlight]⟩ :=
    Reach.tail _ _ (Reach.tail _ _ (Reach.tail _ _ (Reach.refl) h1) h2) h3
  exact (c2_counter_invariants hr).1

/-- Claim C4: for every HTTP client error, `classify_reqwest_error`
returns exactly one of the six kinds, chosen by the fixed priority
chain: a timeout is classified `Timeout` regardless of any other
predicate that also holds; otherwise connect-failure is checked, then
generic-request-error, then body-error, then decode-error, with `Other`
as the final fallback. -/
theorem c4_classifier_priority_chain : ∀ t c r b d : Bool,
    (classify_reqwest_error ⟨t, c, r, b, d⟩ = NetErrKind.Timeout ↔ t = true) ∧
    (classify_reqwest_error ⟨t, c, r, b, d⟩ = NetErrKind.Connect ↔
      t = false ∧ c = true) ∧
    (classify_reqwest_error ⟨t, c, r, b, d⟩ = NetErrKind.Request ↔
      t = false ∧ c = false ∧ r = true) ∧
    (classify_reqwest_error ⟨t, c, r, b, d⟩ = NetErrKind.Body ↔
      t = false ∧ c = false ∧ r = false ∧ b = true) ∧
    (classify_reqwest_error ⟨t, c, r, b, d⟩ = NetErrKind.Decode ↔
      t = false ∧ c = false ∧ r = false ∧ b = false ∧ d = true) ∧
    (classify_reqwest_error ⟨t, c, r, b, d⟩ = NetErrKind.Other ↔
      t = false ∧ c = false ∧ r = false ∧ b = false ∧ d = false) := by
  decide

lemma record_status_foldl (l : List Nat) (a : Aggregates) :
    entrySum ((l.foldl Aggregates.record_status a).status_exact)
        = entrySum a.status_exact + l.length ∧
      ((l.foldl Aggregates.record_status a).status_class).total
        = a.status_class.total + l.length := by
  induction l generalizing a with
  | nil => simp
  | cons c rest ih =>
      simp only [List.foldl_cons, List.length_cons]
      obtain ⟨ih1, ih2⟩ := ih (a.record_status c)
      refine ⟨?_, ?_⟩
      · rw [ih1]
        simp [Aggregates.record_status, entrySum_bumpEntry]
        omega
      · rw [ih2]
        simp [Aggregates.record_status, statusClassTotal_record]
        omega

/-- Claim C5: after any finite sequence of `record_status` calls on an
initially empty `Aggregates`, the sum of the counts in the exact
status-code map equals the sum of the six status-class counters, and
both equal the number of calls made; moreover a single `record_status`
takes the exact counter of its code from its previous value (absent
read as `0`, so a first occurrence initialises to `1`) to that value
plus one. -/
theorem c5_record_status_sums :
    (∀ codeseq : List Nat,
      entrySum ((codeseq.foldl Aggregates.record_status
          Aggregates.new).status_exact) = codeseq.length ∧
      ((codeseq.foldl Aggregates.record_status
          Aggregates.new).status_class).total = codeseq.length) ∧
    (∀ (a : Aggregates) (code : Nat),
      ((a.record_status code).status_exact).lookup code
        = some (((a.status_exact.lookup code).getD 0) + 1)) := by
  constructor
  · intro codeseq
    have h := record_status_foldl codeseq Aggregates.new
    simpa [Aggregates.new, entrySum, StatusClassCounts.empty,
      StatusClassCounts.total] using h
  · intro a code
    simp [Aggregates.record_status, lookup_bumpEntry]

/-- Claim C6: `StatusClassCounts::record` increments exactly one bucket
chosen by the integer quotient `code / 100` — quotients 1–5 land in the
`1xx`..`5xx` buckets, i.e. codes 100–199 up to 500–599, and every other
value (codes below 100 or at least 600) lands in `other` — and always
grows the total by one, so no input crashes it or leaves the counters
unchanged. -/
theorem c6_status_class_bucket : ∀ (s : StatusClassCounts) (code : Nat),
    (s.record code).total = s.total + 1 ∧
    (s.record code).c1xx
      = s.c1xx + (if 100 ≤ code ∧ code < 200 then 1 else 0) ∧
    (s.record code).c2xx
      = s.c2xx + (if 200 ≤ code ∧ code < 300 then 1 else 0) ∧
    (s.record code).c3xx
      = s.c3xx + (if 300 ≤ code ∧ code < 400 then 1 else 0) ∧
    (s.record code).c4xx
      = s.c4xx + (if 400 ≤ code ∧ code < 500 then 1 else 0) ∧
    (s.record code).c5xx
      = s.c5xx + (if 500 ≤ code ∧ code < 600 then 1 else 0) ∧
    (s.record code).other
      = s.other + (if code < 100 ∨ 600 ≤ code then 1 else 0) := by
  intro s code
  unfold StatusClassCounts.record StatusClassCounts.total
  refine ⟨?_, ?_, ?_, ?_, ?_, ?_, ?_⟩ <;> split_ifs <;> simp <;> omega

lemma record_error_foldl (ks : List NetErrKind) (n : NetErrCounts) :
    (ks.foldl NetErrCounts.record n).total = n.total + ks.length := by
  induction ks generalizing n with
  | nil => simp
  | cons k rest ih =>
      simp only [List.foldl_cons, List.length_cons]
      rw [ih (n.record k), netErrTotal_record]
      omega

/-- Claim C7: `NetErrCounts::total` is derived on demand as the sum of
the six per-kind counters (it is a function, not a stored field); each
`record` call — and each `Aggregates::record_error`, which is one
`record` per failed completion — grows it by exactly one, so after any
finite sequence of `record` calls on an initially empty `NetErrCounts`
the total equals the number of calls, i.e. the number of failed
completions. -/
theorem c7_net_err_total :
    (∀ n : NetErrCounts,
      n.total = n.timeout + n.connect + n.request + n.body + n.decode
        + n.other) ∧
    (∀ (n : NetErrCounts) (k : NetErrKind),
      (n.record k).total = n.total + 1) ∧
    (∀ (a : Aggregates) (k : NetErrKind),
      (a.record_error k).net_errors.total = a.net_errors.total + 1) ∧
    (∀ ks : List NetErrKind,
      (ks.foldl NetErrCounts.record NetErrCounts.empty).total = ks.length) := by
  refine ⟨fun n => rfl, netErrTotal_record, ?_, ?_⟩
  · intro a k
    simp [Aggregates.record_error, netErrTotal_record]
  · intro ks
    rw [record_error_foldl]
    simp [NetErrCounts.empty, NetErrCounts.total]

lemma record_latency_foldl_all (ms : List Nat) (a : Aggregates)
    (h : a.latency_micros.all (fun x => 1 ≤ x) = true) :
    ((ms.foldl Aggregates.record_latency a).latency_micros).all
      (fun x => 1 ≤ x) = true := by
  induction ms generalizing a with
  | nil => exact h
  | cons m rest ih =>
      simp only [List.foldl_cons]
      apply ih
      simp only [Aggregates.record_latency, List.all_append, h,
        Bool.true_and, List.all_cons, List.all_nil, Bool.and_true]
      simp

/-- Claim C8: `record_latency` stores exactly `max(m, 1)` for every
input `m` (including `m = 0`), so every sample ever held by the
latency distribution — built from any sequence of recorded latencies,
one per completed request (success or failure: `run` records the
latency at `lib.rs` line 349 before branching on the outcome) — is at
least one microsecond. -/
theorem c8_record_latency_clamp :
    (∀ (a : Aggregates) (m : Nat),
      (a.record_latency m).latency_micros
        = a.latency_micros ++ [Nat.max m 1]) ∧
    (∀ m : Nat, 1 ≤ Nat.max m 1) ∧
    (∀ ms : List Nat,
      ((ms.foldl Aggregates.record_latency Aggregates.new).latency_micros).all
        (fun x => 1 ≤ x) = true) := by
  refine ⟨fun a m => rfl, fun m => Nat.le_max_right m 1, ?_⟩
  intro ms
  apply record_latency_foldl_all
  simp [Aggregates.new]

/-- Full model of `run`: the validation prelude runs first; only when
it succeeds is the worker pool created (`lib.rs` line 290) with
`concurrency.max(1)` workers (line 288), the request limit and the
deadline presence taken from the arguments.  On a validation error no
worker state ever exists. -/
def runSpec (urlOk : List Nat → Bool) (jsonOk : List Nat → Bool)
    (readFile : List Nat → Option (List Nat)) (clientOk : Bool)
    (args : RunArgs) : Except RunError (ValidatedRun × RunConfig × SState) :=
  match run_validate urlOk jsonOk readFile clientOk args with
  | .error e => .error e
  | .ok v =>
      .ok (v, ⟨args.requests, args.duration.isSome⟩,
        initState (Nat.max args.concurrency 1))

/-- Arguments whose method string is not on the allow-list although a
request-count target is present (C3 counterexample input). -/
def c3Args : RunArgs :=
  ⟨codes "http://example.com", codes "FOO", 4, some 5, none, codes "2s",
    [], none, none, none, 1000⟩

/-- Arguments that are valid except that neither `--requests` nor
`--duration` is given (C3 witness input). -/
def c3ValidArgs : RunArgs :=
  ⟨codes "http://example.com", codes "GET", 4, none, none, codes "2s",
    [], none, none, none, 1000⟩

/-- Claim C3, counterexample to the claim as stated.  The claim says
`run` fails with a configuration error exactly when neither a
request-count target nor a duration is provided and performs no other
(re-)validation of its settings.  But `run` itself also validates the
URL, the method, the timeout and duration strings, the headers and the
JSON payload (`lib.rs` lines 233–270): with `--requests 5` present and
the method string `"FOO"`, `run` still fails — with the invalid-method
error — even though a stopping condition was provided. -/
theorem c3_counterexample_other_validation :
    run_validate (fun _ => true) (fun _ => true) (fun _ => none) true c3Args
        = Except.error RunError.invalidMethod ∧
      c3Args.requests = some 5 := by
  constructor
  · rfl
  · rfl

/-- Claim C3 (amended): `run` validates its settings itself — URL,
method, stopping condition, timeout, duration, headers, JSON — in
source order, and fails with the missing-stopping-condition
configuration error whenever the URL and method are accepted and
neither a request-count target nor a duration is provided; every such
failure happens in the prelude, before any worker is spawned, so zero
requests are issued (the full run model returns the bare error and no
worker state). -/
theorem c3_amended_no_stop_condition (urlOk jsonOk : List Nat → Bool)
    (readFile : List Nat → Option (List Nat)) (clientOk : Bool)
    (args : RunArgs) (m : Method)
    (hurl : urlOk args.url = true)
    (hm : parse_http_method args.method = some m)
    (hreq : args.requests = none) (hdur : args.duration = none) :
    run_validate urlOk jsonOk readFile clientOk args
        = Except.error RunError.noStopCondition ∧
      runSpec urlOk jsonOk readFile clientOk args
        = Except.error RunError.noStopCondition := by
  have hv : run_validate urlOk jsonOk readFile clientOk args
      = Except.error RunError.noStopCondition := by
    unfold run_validate
    simp [hurl, hm, hreq, hdur]
    rfl
  exact ⟨hv, by unfold runSpec; rw [hv]⟩

/-- Witness for C3 (amended) at a concrete input: valid URL and method
`"GET"`, no `--requests`, no `--duration`. -/
theorem c3_amended_no_stop_condition_witness :
    run_validate (fun _ => true) (fun _ => true) (fun _ => none) true
        c3ValidArgs = Except.error RunError.noStopCondition ∧
      runSpec (fun _ => true) (fun _ => true) (fun _ => none) true
        c3ValidArgs = Except.error RunError.noStopCondition :=
  c3_amended_no_stop_condition (fun _ => true) (fun _ => true) (fun _ => none)
    true c3ValidArgs Method.GET rfl (by rfl) rfl rfl

/- ----------------- facts about the duration parser ---------------- -/

lemma dropWhile_isWsChar_eq_self {l : List Nat}
    (h : ∀ c ∈ l, isWsChar c = false) : l.dropWhile isWsChar = l := by
  cases l with
  | nil => rfl
  | cons x xs =>
      rw [List.dropWhile_cons, h x (List.mem_cons_self x xs)]
      simp

lemma trimChars_eq_self {l : List Nat}
    (h : ∀ c ∈ l, isWsChar c = false) : trimChars l = l := by
  unfold trimChars
  rw [dropWhile_isWsChar_eq_self h,
    dropWhile_isWsChar_eq_self (fun c hc => h c (List.mem_reverse.mp hc)),
    List.reverse_reverse]

lemma map_lowerChar_eq_self {l : List Nat}
    (h : ∀ c ∈ l, lowerChar c = c) : l.map lowerChar = l := by
  induction l with
  | nil => rfl
  | cons x xs ih =>
      rw [List.map_cons, h x (List.mem_cons_self x xs),
        ih (fun c hc => h c (List.mem_cons_of_mem x hc))]

lemma lowerChar_of_digit {c : Nat} (h : isDigitChar c = true) :
    lowerChar c = c := by
  simp only [isDigitChar, Bool.and_eq_true, decide_eq_true_eq] at h
  unfold lowerChar
  rw [if_neg (by omega)]

lemma isWsChar_of_digit {c : Nat} (h : isDigitChar c = true) :
    isWsChar c = false := by
  simp only [isDigitChar, Bool.and_eq_true, decide_eq_true_eq] at h
  simp only [isWsChar, Bool.or_eq_false_iff, decide_eq_false_iff_not]
  omega

lemma normalizeInput_digits_append {num u : List Nat}
    (hd : ∀ c ∈ num, isDigitChar c = true)
    (hu : ∀ c ∈ u, isWsChar c = false ∧ lowerChar c = c) :
    normalizeInput (num ++ u) = num ++ u := by
  unfold normalizeInput
  rw [trimChars_eq_self, map_lowerChar_eq_self]
  · intro c hc
    rcases List.mem_append.mp hc with hm | hm
    · exact lowerChar_of_digit (hd c hm)
    · exact (hu c hm).2
  · intro c hc
    rcases List.mem_append.mp hc with hm | hm
    · exact isWsChar_of_digit (hd c hm)
    · exact (hu c hm).1

lemma startsWithL_nil_right (l : List Nat) : startsWithL l [] = true := by
  cases l <;> rfl

lemma startsWithL_append_self (p rest : List Nat) :
    startsWithL (p ++ rest) p = true := by
  induction p with
  | nil => simpa using startsWithL_nil_right rest
  | cons x xs ih => simp [startsWithL, ih]

lemma endsWithL_append_self (xs suf : List Nat) :
    endsWithL (xs ++ suf) suf = true := by
  unfold endsWithL
  rw [List.reverse_append]
  exact startsWithL_append_self suf.reverse xs.reverse

lemma take_append_sub (num u : List Nat) :
    (num ++ u).take ((num ++ u).length - u.length) = num := by
  rw [List.length_append, Nat.add_sub_cancel]
  exact List.take_left num u

lemma startsWithL_reverse_digits {l : List Nat} {u : Nat} (hne : l ≠ [])
    (hd : ∀ c ∈ l, isDigitChar c = true) (hu : 58 ≤ u) :
    startsWithL l.reverse [u] = false := by
  cases hr : l.reverse with
  | nil =>
      have : l = [] := by
        have := congrArg List.reverse hr
        simpa using this
      exact absurd this hne
  | cons d rest =>
      have hdm : d ∈ l := by
        have : d ∈ l.reverse := by rw [hr]; exact List.mem_cons_self d rest
        exact List.mem_reverse.mp this
      have := hd d hdm
      simp only [isDigitChar, Bool.and_eq_true, decide_eq_true_eq] at this
      simp only [startsWithL, Bool.and_eq_false_iff]
      left
      simp only [beq_eq_false_iff_ne, ne_eq]
      omega


lemma rustParseU64_digits {num : List Nat} (hne : num ≠ [])
    (hd : ∀ c ∈ num, isDigitChar c = true) (hlt : digitsVal num < 2 ^ 64) :
    rustParseU64 num = some (digitsVal num) := by
  have hhead : ¬num.head? = some 43 := by
    cases num with
    | nil => simp
    | cons c cs =>
        have := hd c (List.mem_cons_self c cs)
        simp only [isDigitChar, Bool.and_eq_true, decide_eq_true_eq] at this
        simp only [List.head?, Option.some.injEq]
        omega
  have hall : num.all isDigitChar = true := List.all_eq_true.mpr hd
  simp only [rustParseU64]
  rw [if_neg hhead, if_neg hne, if_pos hall, if_pos hlt]

lemma take_len_sub_two (num : List Nat) (a b : Nat) :
    (num ++ [a, b]).take ((num ++ [a, b]).length - 2) = num := by
  have h := take_append_sub num [a, b]
  simp only [List.length_cons, List.length_nil] at h
  exact h

lemma take_len_sub_one (num : List Nat) (a : Nat) :
    (num ++ [a]).take ((num ++ [a]).length - 1) = num := by
  have h := take_append_sub num [a]
  simp only [List.length_cons, List.length_nil] at h
  exact h

lemma not_endsWith_ms_of_digits_s {num : List Nat} (hne : num ≠ [])
    (hd : ∀ c ∈ num, isDigitChar c = true) :
    endsWithL (num ++ [115]) [109, 115] = false := by
  unfold endsWithL
  rw [List.reverse_append]
  simp only [List.reverse_cons, List.reverse_nil, List.nil_append,
    List.cons_append, startsWithL, List.reverse_singleton]
  simp only [beq_self_eq_true, Bool.true_and]
  exact startsWithL_reverse_digits hne hd (by omega)

lemma normalizeInput_digits_unit {num : List Nat} (u : List Nat)
    (hd : ∀ c ∈ num, isDigitChar c = true)
    (hu : ∀ c ∈ u, isWsChar c = false ∧ lowerChar c = c) :
    normalizeInput (num ++ u) = num ++ u :=
  normalizeInput_digits_append hd hu

lemma parse_duration_digits_ms {num : List Nat} (hne : num ≠ [])
    (hd : ∀ c ∈ num, isDigitChar c = true) (hlt : digitsVal num < 2 ^ 64) :
    parse_duration (num ++ codes "ms")
      = some (Duration.fromMillis (digitsVal num)) := by
  have hms : codes "ms" = [109, 115] := rfl
  have hnorm : normalizeInput (num ++ [109, 115]) = num ++ [109, 115] := by
    refine normalizeInput_digits_unit _ hd ?_
    intro c hc
    simp only [List.mem_cons, List.not_mem_nil, or_false] at hc
    rcases hc with rfl | rfl <;> exact ⟨by decide, by decide⟩
  unfold parse_duration
  rw [hms, hnorm]
  unfold parseNormalizedDur
  rw [if_neg (by simp), if_pos (by simpa using endsWithL_append_self num [109, 115])]
  rw [take_len_sub_two, trimChars_eq_self (fun c hc => isWsChar_of_digit (hd c hc)),
    rustParseU64_digits hne hd hlt]
  rfl

lemma parse_duration_digits_s {num : List Nat} (hne : num ≠ [])
    (hd : ∀ c ∈ num, isDigitChar c = true) (hlt : digitsVal num < 2 ^ 64) :
    parse_duration (num ++ codes "s")
      = some (Duration.fromSecs (digitsVal num)) := by
  have hs : codes "s" = [115] := rfl
  have hnorm : normalizeInput (num ++ [115]) = num ++ [115] := by
    refine normalizeInput_digits_unit _ hd ?_
    intro c hc
    simp only [List.mem_cons, List.not_mem_nil, or_false] at hc
    rcases hc with rfl
    exact ⟨by decide, by decide⟩
  unfold parse_duration
  rw [hs, hnorm]
  unfold parseNormalizedDur
  rw [if_neg (by simp),
    if_neg (by simpa using not_endsWith_ms_of_digits_s hne hd),
    if_pos (by simpa using endsWithL_append_self num [115])]
  rw [take_len_sub_one, trimChars_eq_self (fun c hc => isWsChar_of_digit (hd c hc)),
    rustParseU64_digits hne hd hlt]
  rfl

lemma parse_duration_digits_m {num : List Nat} (hne : num ≠ [])
    (hd : ∀ c ∈ num, isDigitChar c = true) (hlt : digitsVal num < 2 ^ 64) :
    parse_duration (num ++ codes "m")
      = some (Duration.fromSecs (wrapMul (digitsVal num) 60)) := by
  have hm : codes "m" = [109] := rfl
  have hnorm : normalizeInput (num ++ [109]) = num ++ [109] := by
    refine normalizeInput_digits_unit _ hd ?_
    intro c hc
    simp only [List.mem_cons, List.not_mem_nil, or_false] at hc
    subst hc
    exact ⟨by decide, by decide⟩
  have hnot_ms : endsWithL (num ++ [109]) [109, 115] = false := by
    unfold endsWithL
    rw [List.reverse_append]
    simp [startsWithL]
  have hnot_s : endsWithL (num ++ [109]) [115] = false := by
    unfold endsWithL
    rw [List.reverse_append]
    simp [startsWithL]
  unfold parse_duration
  rw [hm, hnorm]
  unfold parseNormalizedDur
  rw [show codes "ms" = [109, 115] from rfl, show codes "s" = [115] from rfl,
    show codes "m" = [109] from rfl]
  rw [if_neg (by simp), if_neg (by simp [hnot_ms]), if_neg (by simp [hnot_s]),
    if_pos (by simpa using endsWithL_append_self num [109])]
  rw [take_len_sub_one, trimChars_eq_self (fun c hc => isWsChar_of_digit (hd c hc)),
    rustParseU64_digits hne hd hlt]
  rfl

lemma parse_duration_digits_h {num : List Nat} (hne : num ≠ [])
    (hd : ∀ c ∈ num, isDigitChar c = true) (hlt : digitsVal num < 2 ^ 64) :
    parse_duration (num ++ codes "h")
      = some (Duration.fromSecs (wrapMul (wrapMul (digitsVal num) 60) 60)) := by
  have hh : codes "h" = [104] := rfl
  have hnorm : normalizeInput (num ++ [104]) = num ++ [104] := by
    refine normalizeInput_digits_unit _ hd ?_
    intro c hc
    simp only [List.mem_cons, List.not_mem_nil, or_false] at hc
    subst hc
    exact ⟨by decide, by decide⟩
  have hnot_ms : endsWithL (num ++ [104]) [109, 115] = false := by
    unfold endsWithL
    rw [List.reverse_append]
    simp [startsWithL]
  have hnot_s : endsWithL (num ++ [104]) [115] = false := by
    unfold endsWithL
    rw [List.reverse_append]
    simp [startsWithL]
  have hnot_m : endsWithL (num ++ [104]) [109] = false := by
    unfold endsWithL
    rw [List.reverse_append]
    simp [startsWithL]
  unfold parse_duration
  rw [hh, hnorm]
  unfold parseNormalizedDur
  rw [show codes "ms" = [109, 115] from rfl, show codes "s" = [115] from rfl,
    show codes "m" = [109] from rfl, show codes "h" = [104] from rfl]
  rw [if_neg (by simp), if_neg (by simp [hnot_ms]), if_neg (by simp [hnot_s]),
    if_neg (by simp [hnot_m]),
    if_pos (by simpa using endsWithL_append_self num [104])]
  rw [take_len_sub_one, trimChars_eq_self (fun c hc => isWsChar_of_digit (hd c hc)),
    rustParseU64_digits hne hd hlt]
  rfl

lemma parse_duration_no_unit {l : List Nat}
    (h1 : endsWithL (normalizeInput l) (codes "ms") = false)
    (h2 : endsWithL (normalizeInput l) (codes "s") = false)
    (h3 : endsWithL (normalizeInput l) (codes "m") = false)
    (h4 : endsWithL (normalizeInput l) (codes "h") = false) :
    parse_duration l = none := by
  unfold parse_duration parseNormalizedDur
  by_cases hz : normalizeInput l = []
  · rw [if_pos hz]
  · rw [if_neg hz, if_neg (by simp [h1]), if_neg (by simp [h2]),
      if_neg (by simp [h3]), if_neg (by simp [h4])]

lemma parse_duration_bad_numeric {l : List Nat}
    (h : rustParseU64 (numericSlice l) = none) :
    parse_duration l = none := by
  unfold numericSlice numericSliceNorm at h
  unfold parse_duration parseNormalizedDur
  by_cases hz : normalizeInput l = []
  · rw [if_pos hz]
  · rw [if_neg hz] at h ⊢
    by_cases hms : endsWithL (normalizeInput l) (codes "ms") = true
    · rw [if_pos hms] at h ⊢
      rw [h]
      rfl
    · rw [if_neg hms] at h ⊢
      by_cases hs : endsWithL (normalizeInput l) (codes "s") = true
      · rw [if_pos hs] at h ⊢
        rw [h]
        rfl
      · rw [if_neg hs] at h ⊢
        by_cases hm : endsWithL (normalizeInput l) (codes "m") = true
        · rw [if_pos hm] at h ⊢
          rw [h]
          rfl
        · rw [if_neg hm] at h ⊢
          by_cases hh : endsWithL (normalizeInput l) (codes "h") = true
          · rw [if_pos hh] at h ⊢
            rw [h]
            rfl
          · rw [if_neg hh]

/-- Claim C9, counterexample to the claim as stated.  The claim
quantifies over every non-negative integer numeral `n`, but the code
parses the numeral with `parse::<u64>()`, which rejects values of
`2^64` and above: the numeral `18446744073709551616` (that is `2^64`)
followed by `"ms"` yields `none`, not a duration of `2^64`
milliseconds.  Moreover, for a numeral that does fit in `u64` but
whose seconds product overflows, the unit multiplication wraps: the
accepted input `"307445734561825861m"` yields `44` seconds, not
`60 * 307445734561825861` seconds. -/
theorem c9_counterexample_numeral_overflow :
    ((codes "18446744073709551616").all isDigitChar = true ∧
      digitsVal (codes "18446744073709551616") = 2 ^ 64 ∧
      parse_duration (codes "18446744073709551616" ++ codes "ms") = none) ∧
    ((codes "307445734561825861").all isDigitChar = true ∧
      digitsVal (codes "307445734561825861") = 307445734561825861 ∧
      parse_duration (codes "307445734561825861" ++ codes "m")
        = some (Duration.fromSecs 44) ∧
      Duration.fromSecs 44
        ≠ Duration.fromSecs (60 * 307445734561825861)) := by
  exact ⟨⟨by decide, by decide, by decide⟩,
    ⟨by decide, by decide, by decide, by decide⟩⟩

/-- Claim C9 (amended): `parse_duration` is a pure function such that
for every non-negative integer numeral `n` whose value fits in `u64`,
the input `n ++ "ms"` yields `n` milliseconds, `n ++ "s"` yields `n`
seconds, `n ++ "m"` yields `60 * n` seconds provided `60 * n` still
fits in `u64`, and `n ++ "h"` yields `3600 * n` seconds provided
`3600 * n` still fits in `u64` (outside those bounds the `u64`
multiplication wraps, see C10); and it returns `none` for the empty
string, for inputs none of whose normalised forms end in one of the
four unit suffixes, and for inputs whose numeric slice does not parse
as a `u64`. -/
theorem c9_amended_parse_duration :
    (∀ num : List Nat, num ≠ [] → num.all isDigitChar = true →
      digitsVal num < 2 ^ 64 →
      parse_duration (num ++ codes "ms")
          = some (Duration.fromMillis (digitsVal num)) ∧
        parse_duration (num ++ codes "s")
          = some (Duration.fromSecs (digitsVal num)) ∧
        (digitsVal num * 60 < 2 ^ 64 →
          parse_duration (num ++ codes "m")
            = some (Duration.fromSecs (60 * digitsVal num))) ∧
        (digitsVal num * 3600 < 2 ^ 64 →
          parse_duration (num ++ codes "h")
            = some (Duration.fromSecs (3600 * digitsVal num)))) ∧
    parse_duration [] = none ∧
    (∀ l : List Nat,
      endsWithL (normalizeInput l) (codes "ms") = false →
      endsWithL (normalizeInput l) (codes "s") = false →
      endsWithL (normalizeInput l) (codes "m") = false →
      endsWithL (normalizeInput l) (codes "h") = false →
      parse_duration l = none) ∧
    (∀ l : List Nat, rustParseU64 (numericSlice l) = none →
      parse_duration l = none) := by
  refine ⟨?_, rfl, fun l => parse_duration_no_unit,
    fun l => parse_duration_bad_numeric⟩
  intro num hne hall hlt
  have hd : ∀ c ∈ num, isDigitChar c = true := List.all_eq_true.mp hall
  refine ⟨parse_duration_digits_ms hne hd hlt,
    parse_duration_digits_s hne hd hlt, ?_, ?_⟩
  · intro hm60
    rw [parse_duration_digits_m hne hd hlt]
    unfold wrapMul
    rw [Nat.mod_eq_of_lt hm60, Nat.mul_comm]
  · intro hm3600
    have hm60 : digitsVal num * 60 < 2 ^ 64 := by
      calc digitsVal num * 60 ≤ digitsVal num * 3600 :=
            Nat.mul_le_mul_left _ (by omega)
        _ < 2 ^ 64 := hm3600
    rw [parse_duration_digits_h hne hd hlt]
    unfold wrapMul
    rw [Nat.mod_eq_of_lt hm60]
    have : digitsVal num * 60 * 60 = digitsVal num * 3600 := by
      rw [Nat.mul_assoc]
    rw [this, Nat.mod_eq_of_lt hm3600, Nat.mul_comm]

/-- Witness for C9 (amended) at concrete inputs: the numeral `5` with
each behaviour class exercised. -/
theorem c9_amended_parse_duration_witness :
    parse_duration (codes "5" ++ codes "ms")
        = some (Duration.fromMillis 5) ∧
      parse_duration (codes "5" ++ codes "m")
        = some (Duration.fromSecs 300) ∧
      parse_duration [] = none ∧
      parse_duration (codes "10d") = none ∧
      parse_duration (codes "xms") = none := by
  obtain ⟨hpos, hemp, hnou, hbad⟩ := c9_amended_parse_duration
  have h5 := hpos (codes "5") (by decide) (by decide) (by decide)
  exact ⟨h5.1, h5.2.2.1 (by decide), hemp,
    hnou (codes "10d") (by decide) (by decide) (by decide) (by decide),
    hbad (codes "xms") (by decide)⟩

/-- Claim C10: there are syntactically accepted inputs with unit `"h"`
(or `"m"`) whose seconds multiplication overflows 64-bit unsigned
arithmetic, so the returned duration is the product reduced modulo
`2^64` rather than the mathematically correct `3600 * n` seconds (the
model uses Rust release-mode wrapping; in checked builds the same
overflow aborts instead of returning).  Concretely,
`"5124095576030987h"` is accepted and returns
`(5124095576030987 * 3600) % 2^64 = 2001584` seconds. -/
theorem c10_duration_mul_overflow_wraps :
    parse_duration (codes "5124095576030987h")
        = some (Duration.fromSecs 2001584) ∧
      2 ^ 64 < 5124095576030987 * 3600 ∧
      (5124095576030987 * 3600) % 2 ^ 64 = 2001584 ∧
      (2001584 : Nat) ≠ 5124095576030987 * 3600 := by
  exact ⟨by decide, by decide, by decide, by decide⟩
